import Mathlib

/-!
Shallow embedding of the hypercurve curve library (`src/curve_lib.h` and the
modulator extension). Real-valued C++ `double` computations are modelled over
`ℚ` where the source only uses field operations, and over `ℝ` where the source
uses `sqrt` / `acos` / `cos`.
-/

namespace hypercurve

/-- Modelled from the spec: `frac(i, size)` from the missing `utilities.h`,
the normalized position `i / size` used by every whole-buffer loop. -/
def frac (i size : ℕ) : ℚ :=
  (i : ℚ) / (size : ℚ)

/-- `curve_base::scale` (curve_lib.h:61-65): windows the raw shape value `y`
into `[min(y_start, y_destination), max(y_start, y_destination)]`, mirroring
the shape when the segment descends.  `abs_diff` and `offset` are the fields
computed by `curve_base::init` (curve_lib.h:47-53). -/
def scale (y_start y_destination y : ℚ) : ℚ :=
  let abs_diff := |y_start - y_destination|
  let offset := min y_start y_destination
  if y_start > y_destination then (1 - y) * abs_diff + offset
  else y * abs_diff + offset

/-- `curve_base::process` (curve_lib.h:28), the identity shape; via
`using linear_curve = curve_base` this is the linear curve's raw shape. -/
def curve_base_process (x : ℚ) : ℚ := x

/-- `cubic_curve::process` (curve_lib.h:93-96). -/
def cubic_curve_process (x : ℚ) : ℚ := x ^ 3

/-- One step of the loop body of `curve_base::process_all` (curve_lib.h:32-44),
unrolled as structural recursion on the number of remaining samples `rem`;
`i` is the loop index and `m` the running maximum of absolute values. -/
def processAllGo (p : ℚ → ℚ) (ys yd : ℚ) (size : ℕ) :
    ℕ → ℕ → ℚ → List ℚ × ℚ
  | 0, _, m => ([], m)
  | rem + 1, i, m =>
    let res := scale ys yd (p (frac i size))
    let m2 := if |res| > m then |res| else m
    let rest := processAllGo p ys yd size rem (i + 1) m2
    (res :: rest.1, rest.2)

/-- `curve_base::process_all` (curve_lib.h:32-44): fills `size` samples with
`scale(process(frac(i, size)))` and returns the pair (buffer, max abs value). -/
def process_all (p : ℚ → ℚ) (ys yd : ℚ) (size : ℕ) : List ℚ × ℚ :=
  processAllGo p ys yd size size 0 0

/-- `diocles_curve::process` (curve_lib.h:79-82), over `ℝ` because it takes a
square root. -/
noncomputable def diocles_process (a x : ℝ) : ℝ :=
  Real.sqrt (x ^ 3 / (2 * a - x))

/-- `curve_base::scale` again, over `ℝ`, for the shapes whose raw value needs
real transcendental functions. -/
noncomputable def scaleR (y_start y_destination y : ℝ) : ℝ :=
  let abs_diff := |y_start - y_destination|
  let offset := min y_start y_destination
  if y_start > y_destination then (1 - y) * abs_diff + offset
  else y * abs_diff + offset

theorem processAllGo_length (p : ℚ → ℚ) (ys yd : ℚ) (size : ℕ) :
    ∀ rem i m, (processAllGo p ys yd size rem i m).1.length = rem := by
  intro rem
  induction rem with
  | zero => intro i m; rfl
  | succ n ih =>
    intro i m
    simp only [processAllGo, List.length_cons]
    rw [ih]

theorem processAllGo_get (p : ℚ → ℚ) (ys yd : ℚ) (size : ℕ) :
    ∀ rem i m k, k < rem →
      (processAllGo p ys yd size rem i m).1[k]? =
        some (scale ys yd (p (frac (i + k) size))) := by
  intro rem
  induction rem with
  | zero => intro i m k hk; omega
  | succ n ih =>
    intro i m k hk
    cases k with
    | zero => simp [processAllGo]
    | succ j =>
      have hj : j < n := by omega
      simp only [processAllGo, List.getElem?_cons_succ]
      rw [ih (i + 1) _ j hj]
      have : i + 1 + j = i + (j + 1) := by omega
      rw [this]

theorem scale_zero (ys yd : ℚ) : scale ys yd 0 = ys := by
  unfold scale
  split_ifs with h
  · have h1 : |ys - yd| = ys - yd := abs_of_nonneg (by linarith)
    have h2 : min ys yd = yd := min_eq_right (le_of_lt h)
    rw [h1, h2]; ring
  · have h' : ys ≤ yd := le_of_not_lt h
    have h2 : min ys yd = ys := min_eq_left h'
    rw [h2]; ring

theorem scale_one (ys yd : ℚ) : scale ys yd 1 = yd := by
  unfold scale
  split_ifs with h
  · have h2 : min ys yd = yd := min_eq_right (le_of_lt h)
    rw [h2]; ring
  · have h' : ys ≤ yd := le_of_not_lt h
    have h1 : |ys - yd| = yd - ys := by
      rw [abs_of_nonpos (by linarith : ys - yd ≤ 0)]; ring
    have h2 : min ys yd = ys := min_eq_left h'
    rw [h1, h2]; ring

/-- C2: for every simple shape `p`, `process_all` fills slot `i` (for every
`i < count`) with `scale(p(i/count))`; in particular a linear segment with
`y_start = 0`, target `1` and definition `4` renders exactly
`[0, 0.25, 0.5, 0.75]`. -/
theorem simple_process_all_slots (p : ℚ → ℚ) (ys yd : ℚ) (size i : ℕ)
    (hi : i < size) :
    (process_all p ys yd size).1[i]? = some (scale ys yd (p (frac i size))) ∧
    (process_all curve_base_process 0 1 4).1 = [0, 1/4, 1/2, 3/4] := by
  constructor
  · unfold process_all
    rw [processAllGo_get p ys yd size size 0 0 i hi]
    simp
  · norm_num [process_all, processAllGo, scale, frac, curve_base_process]

/-- Witness for C2 at `p = id`, `ys = 0`, `yd = 1`, `size = 4`, `i = 2`. -/
theorem simple_process_all_slots_witness :
    2 < 4 ∧
    ((process_all (fun x => x) 0 1 4).1[2]? =
        some (scale 0 1 ((fun x => x) (frac 2 4))) ∧
      (process_all curve_base_process 0 1 4).1 = [0, 1/4, 1/2, 3/4]) :=
  ⟨by decide, simple_process_all_slots (fun x => x) 0 1 4 2 (by decide)⟩

/-- C1 fails as stated: for the linear shape rendered with `y_start = 0`,
`y_end = 1` and definition `4`, the last sample is `3/4`, not `1`; and for the
diocles shape with its documented-legal parameter `a = 2`, even
`evaluate_at(1) = scale(process(1))` is `√(1/3) ≠ 1 = y_end`. -/
theorem endpoint_claim_counterexample :
    ((process_all curve_base_process 0 1 4).1[3]? = some (3 / 4) ∧
      (3 / 4 : ℚ) ≠ 1) ∧
    scaleR 0 1 (diocles_process 2 1) ≠ 1 := by
  refine ⟨⟨?_, by norm_num⟩, ?_⟩
  · norm_num [process_all, processAllGo, scale, frac, curve_base_process]
  have hval : scaleR 0 1 (diocles_process 2 1) = Real.sqrt (1 / 3) := by
    unfold scaleR diocles_process
    norm_num
  rw [hval]
  intro h
  have h3 : (1 / 3 : ℝ) = 1 := Real.sqrt_eq_one.mp h
  norm_num at h3

/-- C1 amended: for every shape whose raw `process` fixes the endpoints
(`p 0 = 0` and `p 1 = 1`, as for the linear and cubic shapes), `scale` pins
`evaluate_at(0) = y_start` and `evaluate_at(1) = y_end` exactly, and the first
rendered sample equals `y_start`; the last rendered sample, however, is taken
at `x = (size-1)/size`, not at `x = 1`. -/
theorem endpoint_claim_amended (p : ℚ → ℚ) (ys yd : ℚ)
    (h0 : p 0 = 0) (h1 : p 1 = 1) :
    scale ys yd (p 0) = ys ∧ scale ys yd (p 1) = yd ∧
    ∀ size : ℕ, 0 < size → (process_all p ys yd size).1[0]? = some ys := by
  refine ⟨by rw [h0]; exact scale_zero ys yd,
          by rw [h1]; exact scale_one ys yd, ?_⟩
  intro size hsize
  unfold process_all
  rw [processAllGo_get p ys yd size size 0 0 0 hsize]
  have hf : frac 0 size = 0 := by unfold frac; norm_num
  rw [show 0 + 0 = 0 from rfl, hf, h0, scale_zero]

/-- Witness for the amended C1 at the cubic shape, `ys = 2`, `yd = 5`. -/
theorem endpoint_claim_amended_witness :
    (cubic_curve_process 0 = 0 ∧ cubic_curve_process 1 = 1) ∧
    (scale 2 5 (cubic_curve_process 0) = 2 ∧
      scale 2 5 (cubic_curve_process 1) = 5 ∧
      ∀ size : ℕ, 0 < size →
        (process_all cubic_curve_process 2 5 size).1[0]? = some 2) :=
  ⟨⟨by norm_num [cubic_curve_process], by norm_num [cubic_curve_process]⟩,
    endpoint_claim_amended cubic_curve_process 2 5
      (by norm_num [cubic_curve_process]) (by norm_num [cubic_curve_process])⟩

/-- `cubic_spline_curve::cubic_spline_curve` (curve_lib.h:485-490): the
constructor stores the control points but throws
`"Control point list size must be >= 3"` when fewer than 3 are given. -/
def cubic_spline_curve_mk (cp : List (ℚ × ℚ)) : Except String (List (ℚ × ℚ)) :=
  if cp.length < 3 then Except.error "Control point list size must be >= 3"
  else Except.ok cp

/-- C3: constructing a cubic spline curve from fewer than 3 control points
throws, and from 3 or more control points succeeds. -/
theorem cubic_spline_too_few_points (cp : List (ℚ × ℚ)) :
    (cp.length < 3 →
      cubic_spline_curve_mk cp =
        Except.error "Control point list size must be >= 3") ∧
    (3 ≤ cp.length → cubic_spline_curve_mk cp = Except.ok cp) := by
  constructor
  · intro h
    unfold cubic_spline_curve_mk
    rw [if_pos h]
  · intro h
    unfold cubic_spline_curve_mk
    rw [if_neg (by omega)]

/-- Witness for C3 at a 2-point list (throws) and a 3-point list (succeeds). -/
theorem cubic_spline_too_few_points_witness :
    ([((0 : ℚ), (0 : ℚ)), (1, 1)].length < 3 ∧
      cubic_spline_curve_mk [((0 : ℚ), (0 : ℚ)), (1, 1)] =
        Except.error "Control point list size must be >= 3") ∧
    (3 ≤ [((0 : ℚ), (0 : ℚ)), (1, 1), (2, 2)].length ∧
      cubic_spline_curve_mk [((0 : ℚ), (0 : ℚ)), (1, 1), (2, 2)] =
        Except.ok [((0 : ℚ), (0 : ℚ)), (1, 1), (2, 2)]) :=
  ⟨⟨by decide,
      (cubic_spline_too_few_points [((0 : ℚ), (0 : ℚ)), (1, 1)]).1 (by decide)⟩,
    ⟨by decide,
      (cubic_spline_too_few_points [((0 : ℚ), (0 : ℚ)), (1, 1), (2, 2)]).2
        (by decide)⟩⟩

/-- The accumulation performed by the loop body of `vararg_polynomial::process`
(curve_lib.h:241-249): `res += pow(x, constants.size() - i) * constants[i]`
for `i` in `[0, N)`.  Note the C++ function computes this value into `res` but
falls off the end without a `return` statement. -/
def vararg_polynomial_res (constants : List ℚ) (x : ℚ) : ℚ :=
  (List.range constants.length).foldl
    (fun res i => res + x ^ (constants.length - i) * constants.getD i 0) 0

/-- C5: the value accumulated by `vararg_polynomial::process` equals
`Σ_{i<N} coeff[i] * x^(N-i)` (highest power first); the concrete conjunct
evaluates it at the failing input `constants = [1]`, `x = 1`, where the C++
function computes `1` but never returns it (missing `return res;`). -/
theorem foldl_add_range (f : ℕ → ℚ) :
    ∀ n : ℕ, (List.range n).foldl (fun res i => res + f i) 0 =
      ∑ i ∈ Finset.range n, f i := by
  intro n
  induction n with
  | zero => simp
  | succ k ih =>
    rw [List.range_succ, List.foldl_append, ih, Finset.sum_range_succ]
    simp

theorem vararg_polynomial_sum (constants : List ℚ) (x : ℚ) :
    vararg_polynomial_res constants x =
      ∑ i ∈ Finset.range constants.length,
        constants.getD i 0 * x ^ (constants.length - i) ∧
    vararg_polynomial_res [1] 1 = 1 := by
  constructor
  · unfold vararg_polynomial_res
    rw [foldl_add_range
      (fun i => x ^ (constants.length - i) * constants.getD i 0)]
    exact Finset.sum_congr rfl fun i _ => mul_comm _ _
  · norm_num [vararg_polynomial_res, List.range_succ]

/-- `quadratic_bezier_curve::process_bezier` (curve_lib.h:330-336) with the
coefficients computed by `quadratic_bezier_curve::on_init` (curve_lib.h:314-322)
from control point `(cpx, cpy)` and window `y_start = ys`, `y_destination = yd`
inlined. -/
def quadratic_bezier_pb (cpx cpy ys yd : ℚ) (x : ℚ) : ℚ × ℚ :=
  let c_x := 3 * cpx
  let b_x := -c_x
  let a_x := 1 - c_x - b_x
  let c_y := 3 * (cpy - ys)
  let b_y := -c_y
  let a_y := yd - ys - c_y - b_y
  (a_x * x ^ 3 + b_x * x ^ 2 + c_x * x,
   a_y * x ^ 3 + b_y * x ^ 2 + c_y * x + ys)

/-- `cubic_bezier_curve::process_bezier` (curve_lib.h:462-473) with the
coefficients computed by `cubic_bezier_curve::init` (curve_lib.h:361-371)
from control points `(c1x, c1y)`, `(c2x, c2y)` and window `ys`, `yd` inlined. -/
def cubic_bezier_pb (c1x c1y c2x c2y ys yd : ℚ) (x : ℚ) : ℚ × ℚ :=
  let c_x := (-1) * 0 + 3 * c1x - 3 * c2x + 1
  let b_x := 3 * 0 - 6 * c1x + 3 * c2x
  let a_x := (-3) * 0 + 3 * c1x
  let c_y := (-1) * ys + 3 * c1y - 3 * c2y + yd
  let b_y := 3 * ys - 6 * c1y + 3 * c2y
  let a_y := (-3) * ys + 3 * c1y
  (x ^ 3 * c_x + x ^ 2 * b_x + x * a_x,
   x ^ 3 * c_y + x ^ 2 * b_y + x * a_y + ys)

/-- C9: after `init(y_start, y_dest)`, the parametric evaluator of both Bezier
variants satisfies `process_bezier(0) = (0, y_start)` and
`process_bezier(1) = (1, y_dest)` exactly, for every choice of control
points. -/
theorem bezier_parametric_endpoints (cpx cpy c1x c1y c2x c2y ys yd : ℚ) :
    quadratic_bezier_pb cpx cpy ys yd 0 = (0, ys) ∧
    quadratic_bezier_pb cpx cpy ys yd 1 = (1, yd) ∧
    cubic_bezier_pb c1x c1y c2x c2y ys yd 0 = (0, ys) ∧
    cubic_bezier_pb c1x c1y c2x c2y ys yd 1 = (1, yd) := by
  refine ⟨?_, ?_, ?_, ?_⟩ <;>
    · simp only [quadratic_bezier_pb, cubic_bezier_pb, Prod.mk.injEq]
      constructor <;> ring

/-- `bezier_curve_base::process(double)` (curve_lib.h:291-294): the
single-sample evaluator of the Bezier family unconditionally throws
`"Unimplemented for Bezier curve"`. -/
def bezier_curve_base_process (_x : ℚ) : Except String ℚ :=
  Except.error "Unimplemented for Bezier curve"

/-- C10: for every input `x` — in range or not — the Bezier-family
single-sample evaluator signals the `"Unimplemented for Bezier curve"` error
and never returns a value. -/
theorem bezier_process_always_throws (x : ℚ) :
    bezier_curve_base_process x =
      Except.error "Unimplemented for Bezier curve" ∧
    ∀ y : ℚ, bezier_curve_base_process x ≠ Except.ok y := by
  exact ⟨rfl, fun y h => Except.noConfusion h⟩

/-- Modelled from the spec: `relative_position(x1, x2, x)` from the missing
`utilities.h`, the position of `x` inside `[x1, x2]` as a fraction. -/
def relative_position (x1 x2 x : ℚ) : ℚ :=
  (x - x1) / (x2 - x1)

/-- Modelled from the spec: `linear_interpolation(y1, y2, f)` from the missing
`utilities.h`. -/
def linear_interpolation (y1 y2 f : ℚ) : ℚ :=
  y1 + (y2 - y1) * f

/-- The inner `while(cnt < size)` marching loop shared by
`bezier_curve_base::process_all` (curve_lib.h:269-279) and
`catmull_rom_spline_curve::process_all` (curve_lib.h:549-559): starting from
the cached parametric samples `r1`, `r2`, it either finds a bracket
`r1.x ≤ x ≤ r2.x`, or recomputes `r1 = pb(cnt/size)`, `r2 = pb((cnt+1)/size)`
and advances `cnt`, stopping when `cnt` reaches `size`.  Returns the final
`(cnt, r1, r2)`. -/
def march (pb : ℚ → ℚ × ℚ) (size : ℕ) (x : ℚ) (cnt : ℕ) (r1 r2 : ℚ × ℚ) :
    ℕ × (ℚ × ℚ) × (ℚ × ℚ) :=
  if _h : cnt < size then
    if r1.1 ≤ x ∧ x ≤ r2.1 then (cnt, r1, r2)
    else march pb size x (cnt + 1) (pb (frac cnt size)) (pb (frac (cnt + 1) size))
  else (cnt, r1, r2)
termination_by size - cnt
decreasing_by omega

/-- The outer `for` loop of the two parametric `process_all` methods,
as structural recursion on the remaining sample count `rem`; threads the
marching state `(cnt, r1, r2)` and the running maximum `m`, and returns
(buffer, max, final cnt). -/
def parametricGo (pb : ℚ → ℚ × ℚ) (size : ℕ) :
    ℕ → ℕ → ℕ → ℚ × ℚ → ℚ × ℚ → ℚ → List ℚ × ℚ × ℕ
  | 0, _, cnt, _, _, m => ([], m, cnt)
  | rem + 1, i, cnt, r1, r2, m =>
    let x := frac i size
    let st := march pb size x cnt r1 r2
    let rx := relative_position st.2.1.1 st.2.2.1 x
    let li := linear_interpolation st.2.1.2 st.2.2.2 rx
    let m2 := if |li| > m then |li| else m
    let rest := parametricGo pb size rem (i + 1) st.1 st.2.1 st.2.2 m2
    (li :: rest.1, rest.2)

/-- `bezier_curve_base::process_all` (curve_lib.h:261-289) and
`catmull_rom_spline_curve::process_all` (curve_lib.h:542-568), which share
this exact structure: seed `r1 = pb(0/size)`, `r2 = pb(1/size)`, `cnt = 0`,
then for each output index interpolate between the bracketing parametric
samples found by `march`. -/
def parametric_process_all (pb : ℚ → ℚ × ℚ) (size : ℕ) : List ℚ × ℚ × ℕ :=
  parametricGo pb size size 0 0 (pb (frac 0 size)) (pb (frac 1 size)) 0

/-- `catmull_rom_spline_curve::process_catmul_rom` (curve_lib.h:571-582) with
`_cp1 = (0, y_start)` and `_cp2 = (1, y_destination)` as set by `on_init`
(curve_lib.h:535-539); `p0`/`p3` are the user control points. -/
def catmull_rom_pb (p0x p0y p3x p3y ys yd : ℚ) (x : ℚ) : ℚ × ℚ :=
  let cp0 : ℚ × ℚ := (p0x, p0y)
  let cp1 : ℚ × ℚ := (0, ys)
  let cp2 : ℚ × ℚ := (1, yd)
  let cp3 : ℚ × ℚ := (p3x, p3y)
  ((1 / 2) * ((cp1.1 * 2) + (-cp0.1 + cp2.1) * x
      + ((cp0.1 * 2) - (cp1.1 * 5) + (cp2.1 * 4) - cp3.1) * (x * x)
      + (-cp0.1 + (cp1.1 * 3) - (cp2.1 * 3) + cp3.1) * (x * x * x)),
   (1 / 2) * ((cp1.2 * 2) + (-cp0.2 + cp2.2) * x
      + ((cp0.2 * 2) - (cp1.2 * 5) + (cp2.2 * 4) - cp3.2) * (x * x)
      + (-cp0.2 + (cp1.2 * 3) - (cp2.2 * 3) + cp3.2) * (x * x * x)))

theorem march_exit (pb : ℚ → ℚ × ℚ) (size : ℕ) (x : ℚ) :
    ∀ fuel cnt r1 r2, size - cnt ≤ fuel →
      size ≤ (march pb size x cnt r1 r2).1 ∨
      ((march pb size x cnt r1 r2).2.1.1 ≤ x ∧
        x ≤ (march pb size x cnt r1 r2).2.2.1) := by
  intro fuel
  induction fuel with
  | zero =>
    intro cnt r1 r2 hf
    rw [march]
    have hc : ¬ cnt < size := by omega
    rw [dif_neg hc]
    left
    omega
  | succ n ih =>
    intro cnt r1 r2 hf
    rw [march]
    split_ifs with hc hb
    · right
      exact hb
    · exact ih (cnt + 1) _ _ (by omega)
    · left
      omega

theorem march_cnt_bounds (pb : ℚ → ℚ × ℚ) (size : ℕ) (x : ℚ) :
    ∀ fuel cnt r1 r2, size - cnt ≤ fuel →
      cnt ≤ (march pb size x cnt r1 r2).1 ∧
      (march pb size x cnt r1 r2).1 ≤ max cnt size := by
  intro fuel
  induction fuel with
  | zero =>
    intro cnt r1 r2 hf
    rw [march]
    have hc : ¬ cnt < size := by omega
    rw [dif_neg hc]
    exact ⟨le_refl _, le_max_left _ _⟩
  | succ n ih =>
    intro cnt r1 r2 hf
    rw [march]
    split_ifs with hc hb
    · exact ⟨le_refl _, le_max_left _ _⟩
    · have h := ih (cnt + 1) (pb (frac cnt size)) (pb (frac (cnt + 1) size))
        (by omega)
      constructor
      · omega
      · have : max (cnt + 1) size = size := by omega
        rw [this] at h
        omega
    · exact ⟨le_refl _, le_max_left _ _⟩

theorem parametricGo_cnt (pb : ℚ → ℚ × ℚ) (size : ℕ) :
    ∀ rem i cnt r1 r2 m, cnt ≤ size →
      (parametricGo pb size rem i cnt r1 r2 m).2.2 ≤ size ∧
      (parametricGo pb size rem i cnt r1 r2 m).1.length = rem := by
  intro rem
  induction rem with
  | zero =>
    intro i cnt r1 r2 m hc
    exact ⟨hc, rfl⟩
  | succ n ih =>
    intro i cnt r1 r2 m hc
    simp only [parametricGo, List.length_cons]
    have hm := march_cnt_bounds pb size (frac i size) (size - cnt) cnt r1 r2
      (le_refl _)
    have hcnt : (march pb size (frac i size) cnt r1 r2).1 ≤ size := by
      have := hm.2
      omega
    have h := ih (i + 1) (march pb size (frac i size) cnt r1 r2).1
      (march pb size (frac i size) cnt r1 r2).2.1
      (march pb size (frac i size) cnt r1 r2).2.2
      (if |linear_interpolation (march pb size (frac i size) cnt r1 r2).2.1.2
            (march pb size (frac i size) cnt r1 r2).2.2.2
            (relative_position (march pb size (frac i size) cnt r1 r2).2.1.1
              (march pb size (frac i size) cnt r1 r2).2.2.1 (frac i size))| > m
        then |linear_interpolation (march pb size (frac i size) cnt r1 r2).2.1.2
            (march pb size (frac i size) cnt r1 r2).2.2.2
            (relative_position (march pb size (frac i size) cnt r1 r2).2.1.1
              (march pb size (frac i size) cnt r1 r2).2.2.1 (frac i size))|
        else m) hcnt
    exact ⟨h.1, by rw [h.2]⟩

/-- C4: for every choice of control points and every `size`, the marching
bracket search of the Bezier / Catmull-Rom `process_all` advances at most
`size` times in total (the final `cnt` never exceeds `size`), the output
buffer still holds exactly `size` samples, and the inner loop only exits
either by exhausting `cnt` (then the last available parametric samples are
used for interpolation) or by finding the bracket. -/
theorem parametric_marching_bounded (size : ℕ)
    (cpx cpy c1x c1y c2x c2y p0x p0y p3x p3y ys yd : ℚ) :
    (parametric_process_all (quadratic_bezier_pb cpx cpy ys yd) size).2.2
        ≤ size ∧
    (parametric_process_all (cubic_bezier_pb c1x c1y c2x c2y ys yd) size).2.2
        ≤ size ∧
    (parametric_process_all (catmull_rom_pb p0x p0y p3x p3y ys yd) size).2.2
        ≤ size ∧
    (∀ pb : ℚ → ℚ × ℚ,
      (parametric_process_all pb size).2.2 ≤ size ∧
      (parametric_process_all pb size).1.length = size) ∧
    (∀ (pb : ℚ → ℚ × ℚ) (x : ℚ) (cnt : ℕ) (r1 r2 : ℚ × ℚ),
      size ≤ (march pb size x cnt r1 r2).1 ∨
      ((march pb size x cnt r1 r2).2.1.1 ≤ x ∧
        x ≤ (march pb size x cnt r1 r2).2.2.1)) := by
  have hall : ∀ pb : ℚ → ℚ × ℚ,
      (parametric_process_all pb size).2.2 ≤ size ∧
      (parametric_process_all pb size).1.length = size := by
    intro pb
    exact parametricGo_cnt pb size size 0 0 _ _ 0 (Nat.zero_le _)
  refine ⟨(hall _).1, (hall _).1, (hall _).1, hall, ?_⟩
  intro pb x cnt r1 r2
  exact march_exit pb size x (size - cnt) cnt r1 r2 (le_refl _)

/-- The `amplitude` hierarchy of `modulator_lib.h`: `amplitude_fixed` holds a
scalar, `amplitude_interpolated` delegates to an interpolator, here an
arbitrary function `ℚ → ℚ` (the source's `linear_interpolator` /
`cubic_interpolator` both reduce to fixed shapes over `[0,1]`). -/
inductive amplitude where
  | fixed (d : ℚ)
  | interpolated (f : ℚ → ℚ)

/-- `amplitude_fixed::get_amplitude` / `amplitude_interpolated::get_amplitude`
(modulator_lib.h). -/
def get_amplitude : amplitude → ℚ → ℚ
  | amplitude.fixed d, _ => d
  | amplitude.interpolated f, x => f x

/-- Loop body of `modulator_base::process_all` (modulator_lib.h): each sample
is `get_amplitude(x) * process(x)` at `x = frac(i, size)` — no `scale` call —
with the maximum absolute value tracked exactly as in `curve_base`. -/
def modulatorGo (a : amplitude) (p : ℚ → ℚ) (size : ℕ) :
    ℕ → ℕ → ℚ → List ℚ × ℚ
  | 0, _, m => ([], m)
  | rem + 1, i, m =>
    let x := frac i size
    let res := get_amplitude a x * p x
    let m2 := if |res| > m then |res| else m
    let rest := modulatorGo a p size rem (i + 1) m2
    (res :: rest.1, rest.2)

/-- `modulator_base::process_all` (modulator_lib.h): the whole-buffer
production of every modulator variant (noise, sine, Chebyshev), generic in the
variant's `process` override `p`. -/
def modulator_process_all (a : amplitude) (p : ℚ → ℚ) (size : ℕ) :
    List ℚ × ℚ :=
  modulatorGo a p size size 0 0

theorem modulatorGo_get (a : amplitude) (p : ℚ → ℚ) (size : ℕ) :
    ∀ rem i m k, k < rem →
      (modulatorGo a p size rem i m).1[k]? =
        some (get_amplitude a (frac (i + k) size) * p (frac (i + k) size)) := by
  intro rem
  induction rem with
  | zero => intro i m k hk; omega
  | succ n ih =>
    intro i m k hk
    cases k with
    | zero => simp [modulatorGo]
    | succ j =>
      have hj : j < n := by omega
      simp only [modulatorGo, List.getElem?_cons_succ]
      rw [ih (i + 1) _ j hj]
      have : i + 1 + j = i + (j + 1) := by omega
      rw [this]

theorem modulatorGo_max_le (a : amplitude) (p : ℚ → ℚ) (size : ℕ) :
    ∀ rem i m, m ≤ (modulatorGo a p size rem i m).2 := by
  intro rem
  induction rem with
  | zero => intro i m; exact le_refl _
  | succ n ih =>
    intro i m
    simp only [modulatorGo]
    refine le_trans ?_ (ih (i + 1) _)
    split_ifs with h
    · exact le_of_lt h
    · exact le_refl _

theorem modulatorGo_max_bound (a : amplitude) (p : ℚ → ℚ) (size : ℕ) :
    ∀ rem i m s, s ∈ (modulatorGo a p size rem i m).1 →
      |s| ≤ (modulatorGo a p size rem i m).2 := by
  intro rem
  induction rem with
  | zero => intro i m s hs; simp [modulatorGo] at hs
  | succ n ih =>
    intro i m s hs
    simp only [modulatorGo, List.mem_cons] at hs
    rcases hs with hs | hs
    · subst hs
      refine le_trans ?_ (modulatorGo_max_le a p size n (i + 1) _)
      split_ifs with h
      · exact le_refl _
      · exact le_of_not_lt h
    · exact ih (i + 1) _ s hs

theorem modulatorGo_max_mem (a : amplitude) (p : ℚ → ℚ) (size : ℕ) :
    ∀ rem i m, (modulatorGo a p size rem i m).2 = m ∨
      ∃ s ∈ (modulatorGo a p size rem i m).1,
        |s| = (modulatorGo a p size rem i m).2 := by
  intro rem
  induction rem with
  | zero => intro i m; left; rfl
  | succ n ih =>
    intro i m
    simp only [modulatorGo, List.mem_cons]
    rcases ih (i + 1)
        (if |get_amplitude a (frac i size) * p (frac i size)| > m
          then |get_amplitude a (frac i size) * p (frac i size)| else m)
      with h | ⟨s, hs, hmax⟩
    · rw [h]
      split_ifs with hgt
      · right
        exact ⟨get_amplitude a (frac i size) * p (frac i size), Or.inl rfl, rfl⟩
      · left; rfl
    · right
      exact ⟨s, Or.inr hs, hmax⟩

/-- C8: for every modulator variant (its `process` override `p`), every
amplitude source and every size, slot `i` of the whole-buffer production is
`amplitude(i/size) * p(i/size)` — the default `scale` windowing law is not
applied — and the returned value is the maximum absolute value among the
samples (it equals `0` when all samples vanish, and is attained by some sample
otherwise). -/
theorem modulator_production (a : amplitude) (p : ℚ → ℚ) (size i : ℕ)
    (hi : i < size) :
    (modulator_process_all a p size).1[i]? =
      some (get_amplitude a (frac i size) * p (frac i size)) ∧
    (∀ s ∈ (modulator_process_all a p size).1,
      |s| ≤ (modulator_process_all a p size).2) ∧
    ((modulator_process_all a p size).2 = 0 ∨
      ∃ s ∈ (modulator_process_all a p size).1,
        |s| = (modulator_process_all a p size).2) := by
  refine ⟨?_, ?_, ?_⟩
  · unfold modulator_process_all
    rw [modulatorGo_get a p size size 0 0 i hi]
    simp
  · intro s hs
    exact modulatorGo_max_bound a p size size 0 0 s hs
  · exact modulatorGo_max_mem a p size size 0 0

/-- Witness for C8 at a fixed amplitude `2`, `p = id`, `size = 2`, `i = 1`. -/
theorem modulator_production_witness :
    1 < 2 ∧
    ((modulator_process_all (amplitude.fixed 2) (fun x => x) 2).1[1]? =
        some (get_amplitude (amplitude.fixed 2) (frac 1 2) *
          (fun x => x) (frac 1 2)) ∧
      (∀ s ∈ (modulator_process_all (amplitude.fixed 2) (fun x => x) 2).1,
        |s| ≤ (modulator_process_all (amplitude.fixed 2) (fun x => x) 2).2) ∧
      ((modulator_process_all (amplitude.fixed 2) (fun x => x) 2).2 = 0 ∨
        ∃ s ∈ (modulator_process_all (amplitude.fixed 2) (fun x => x) 2).1,
          |s| = (modulator_process_all (amplitude.fixed 2) (fun x => x) 2).2)) :=
  ⟨by decide,
    modulator_production (amplitude.fixed 2) (fun x => x) 2 1 (by decide)⟩

/-- Modelled from the spec: the rendered `curve` object of the missing
`core.h` — a `y_start` plus the rendered sample buffer; `definition` is the
buffer length. -/
structure hc_curve where
  y_start : ℚ
  samples : List ℚ

/-- Modelled from the spec: `curve::get_definition`. -/
def hc_curve.definition (c : hc_curve) : ℕ :=
  c.samples.length

/-- Modelled from the spec: `curve::get_sample_at(i)` — out-of-range access is
a defined error (`none`), not a silent clamp. -/
def hc_curve.get_sample_at (c : hc_curve) (i : ℕ) : Option ℚ :=
  c.samples[i]?

/-- Modelled from the spec: the shared elementwise combinator behind the
`+ - *` operators of the missing `core.h`: both operands must share the same
`definition` (else `DimensionMismatch`), and the result's buffer is the
elementwise operation. -/
def hc_curve.combine (f : ℚ → ℚ → ℚ) (c1 c2 : hc_curve) : Option hc_curve :=
  if c1.definition = c2.definition then
    some ⟨c1.y_start, List.zipWith f c1.samples c2.samples⟩
  else none

/-- Modelled from the spec: `curve` operator `+`. -/
def hc_curve.add (c1 c2 : hc_curve) : Option hc_curve :=
  hc_curve.combine (fun x y => x + y) c1 c2

/-- Modelled from the spec: `curve` operator `-`. -/
def hc_curve.sub (c1 c2 : hc_curve) : Option hc_curve :=
  hc_curve.combine (fun x y => x - y) c1 c2

/-- Modelled from the spec: `curve` operator `*`. -/
def hc_curve.mul (c1 c2 : hc_curve) : Option hc_curve :=
  hc_curve.combine (fun x y => x * y) c1 c2

/-- Modelled from the spec: `curve` operator `/` — additionally a defined
`DivideByZero` error when the divisor curve contains a zero sample. -/
def hc_curve.div (c1 c2 : hc_curve) : Option hc_curve :=
  if c2.samples.contains 0 then none
  else hc_curve.combine (fun x y => x / y) c1 c2

theorem hc_combine_get (f : ℚ → ℚ → ℚ) (c1 c2 : hc_curve) (i : ℕ) (a b : ℚ)
    (hdef : c1.definition = c2.definition)
    (ha : c1.get_sample_at i = some a) (hb : c2.get_sample_at i = some b) :
    ∃ c, hc_curve.combine f c1 c2 = some c ∧
      c.get_sample_at i = some (f a b) := by
  refine ⟨⟨c1.y_start, List.zipWith f c1.samples c2.samples⟩, ?_, ?_⟩
  · unfold hc_curve.combine
    rw [if_pos hdef]
  · unfold hc_curve.get_sample_at at ha hb ⊢
    have hia : i < c1.samples.length := by
      by_contra hcon
      rw [List.getElem?_eq_none (by omega)] at ha
      exact Option.noConfusion ha
    have hib : i < c2.samples.length := by
      by_contra hcon
      rw [List.getElem?_eq_none (by omega)] at hb
      exact Option.noConfusion hb
    have hlen : i < (List.zipWith f c1.samples c2.samples).length := by
      rw [List.length_zipWith]
      omega
    rw [List.getElem?_eq_getElem hlen]
    rw [List.getElem?_eq_getElem hia] at ha
    rw [List.getElem?_eq_getElem hib] at hb
    rw [List.getElem_zipWith]
    rw [Option.some.injEq] at ha hb ⊢
    rw [ha, hb]

/-- C7: on same-definition curves, each arithmetic combinator is elementwise
(`(c1 op c2).get_sample_at(i) = op(c1.get_sample_at(i), c2.get_sample_at(i))`
for `op ∈ {add, sub, mul, div}`, division additionally requiring a
zero-free divisor), and `add` and `mul` are commutative on the sample
buffers. -/
theorem curve_arithmetic (c1 c2 : hc_curve) (i : ℕ) (a b : ℚ)
    (hdef : c1.definition = c2.definition)
    (ha : c1.get_sample_at i = some a) (hb : c2.get_sample_at i = some b) :
    (∃ c, hc_curve.add c1 c2 = some c ∧ c.get_sample_at i = some (a + b)) ∧
    (∃ c, hc_curve.sub c1 c2 = some c ∧ c.get_sample_at i = some (a - b)) ∧
    (∃ c, hc_curve.mul c1 c2 = some c ∧ c.get_sample_at i = some (a * b)) ∧
    (¬ c2.samples.contains 0 →
      ∃ c, hc_curve.div c1 c2 = some c ∧ c.get_sample_at i = some (a / b)) ∧
    (hc_curve.add c1 c2).map hc_curve.samples =
      (hc_curve.add c2 c1).map hc_curve.samples ∧
    (hc_curve.mul c1 c2).map hc_curve.samples =
      (hc_curve.mul c2 c1).map hc_curve.samples := by
  refine ⟨hc_combine_get _ c1 c2 i a b hdef ha hb,
          hc_combine_get _ c1 c2 i a b hdef ha hb,
          hc_combine_get _ c1 c2 i a b hdef ha hb, ?_, ?_, ?_⟩
  · intro hz
    unfold hc_curve.div
    rw [if_neg hz]
    exact hc_combine_get _ c1 c2 i a b hdef ha hb
  · unfold hc_curve.add hc_curve.combine
    rw [if_pos hdef, if_pos hdef.symm]
    simp only [Option.map_some']
    exact congrArg some
      (List.zipWith_comm_of_comm _ (fun x y => add_comm x y)
        c1.samples c2.samples)
  · unfold hc_curve.mul hc_curve.combine
    rw [if_pos hdef, if_pos hdef.symm]
    simp only [Option.map_some']
    exact congrArg some
      (List.zipWith_comm_of_comm _ (fun x y => mul_comm x y)
        c1.samples c2.samples)

/-- Witness for C7 at `c1 = ⟨0, [1, 2]⟩`, `c2 = ⟨0, [3, 5]⟩`, `i = 1`. -/
theorem curve_arithmetic_witness :
    ((hc_curve.mk 0 [1, 2]).definition = (hc_curve.mk 0 [3, 5]).definition ∧
      (hc_curve.mk 0 [1, 2]).get_sample_at 1 = some 2 ∧
      (hc_curve.mk 0 [3, 5]).get_sample_at 1 = some 5) ∧
    ((∃ c, hc_curve.add (hc_curve.mk 0 [1, 2]) (hc_curve.mk 0 [3, 5]) = some c ∧
        c.get_sample_at 1 = some (2 + 5)) ∧
      (∃ c, hc_curve.sub (hc_curve.mk 0 [1, 2]) (hc_curve.mk 0 [3, 5]) = some c ∧
        c.get_sample_at 1 = some (2 - 5)) ∧
      (∃ c, hc_curve.mul (hc_curve.mk 0 [1, 2]) (hc_curve.mk 0 [3, 5]) = some c ∧
        c.get_sample_at 1 = some (2 * 5)) ∧
      (¬ (hc_curve.mk 0 [3, 5]).samples.contains 0 →
        ∃ c, hc_curve.div (hc_curve.mk 0 [1, 2]) (hc_curve.mk 0 [3, 5]) = some c ∧
          c.get_sample_at 1 = some (2 / 5)) ∧
      (hc_curve.add (hc_curve.mk 0 [1, 2]) (hc_curve.mk 0 [3, 5])).map
          hc_curve.samples =
        (hc_curve.add (hc_curve.mk 0 [3, 5]) (hc_curve.mk 0 [1, 2])).map
          hc_curve.samples ∧
      (hc_curve.mul (hc_curve.mk 0 [1, 2]) (hc_curve.mk 0 [3, 5])).map
          hc_curve.samples =
        (hc_curve.mul (hc_curve.mk 0 [3, 5]) (hc_curve.mk 0 [1, 2])).map
          hc_curve.samples) :=
  ⟨⟨rfl, by norm_num [hc_curve.get_sample_at], by norm_num [hc_curve.get_sample_at]⟩,
    curve_arithmetic (hc_curve.mk 0 [1, 2]) (hc_curve.mk 0 [3, 5]) 1 2 5 rfl
      (by norm_num [hc_curve.get_sample_at]) (by norm_num [hc_curve.get_sample_at])⟩

/-- Modelled from the spec: `cubic_root` from the missing `utilities.h`, the
real cube root used by the Bezier-inversion solvers (always applied to a
non-negative argument, the sign being handled at every call site). -/
noncomputable def cubic_root (x : ℝ) : ℝ :=
  x ^ ((1 : ℝ) / 3)

/-- First root candidate of `cubic_bezier_curve::solve_quadratic`
(curve_lib.h:452). -/
noncomputable def quad_root1 (a b c : ℝ) : ℝ :=
  (-b + Real.sqrt (b ^ 2 - 4 * a * c)) / (2 * a)

/-- Second root candidate of `cubic_bezier_curve::solve_quadratic`
(curve_lib.h:455). -/
noncomputable def quad_root2 (a b c : ℝ) : ℝ :=
  (-b - Real.sqrt (b ^ 2 - 4 * a * c)) / (2 * a)

/-- `cubic_bezier_curve::solve_quadratic` (curve_lib.h:450-460): try the two
quadratic-formula roots in order, return the first lying in `[0,1]`,
throw (`none`) otherwise. -/
noncomputable def solve_quadratic (a b c : ℝ) : Option ℝ :=
  if 0 ≤ quad_root1 a b c ∧ quad_root1 a b c ≤ 1 then some (quad_root1 a b c)
  else if 0 ≤ quad_root2 a b c ∧ quad_root2 a b c ≤ 1 then
    some (quad_root2 a b c)
  else none

/-- Local `q` of `cubic_bezier_curve::solve_cubic` (curve_lib.h:409), after
the in-place divisions of `b`, `c` by `a`. -/
noncomputable def cubic_q (a b c : ℝ) : ℝ :=
  (3 * (c / a) - (b / a) ^ 2) / 9

/-- Local `r` of `solve_cubic` (curve_lib.h:410). -/
noncomputable def cubic_r (a b c d : ℝ) : ℝ :=
  (-27 * (d / a) + (b / a) * (9 * (c / a) - 2 * (b / a) ^ 2)) / 54

/-- Local `disc` of `solve_cubic` (curve_lib.h:411). -/
noncomputable def cubic_disc (a b c d : ℝ) : ℝ :=
  cubic_q a b c ^ 3 + cubic_r a b c d ^ 2

/-- Local `term1` of `solve_cubic` (curve_lib.h:412). -/
noncomputable def cubic_term1 (a b : ℝ) : ℝ :=
  (b / a) / 3

/-- Local `s` of the `disc > 0` branch (curve_lib.h:415-416). -/
noncomputable def cubic_s (a b c d : ℝ) : ℝ :=
  if cubic_r a b c d + Real.sqrt (cubic_disc a b c d) < 0 then
    -cubic_root (-(cubic_r a b c d + Real.sqrt (cubic_disc a b c d)))
  else cubic_root (cubic_r a b c d + Real.sqrt (cubic_disc a b c d))

/-- Local `t` of the `disc > 0` branch (curve_lib.h:417-418). -/
noncomputable def cubic_t (a b c d : ℝ) : ℝ :=
  if cubic_r a b c d - Real.sqrt (cubic_disc a b c d) < 0 then
    -cubic_root (-(cubic_r a b c d - Real.sqrt (cubic_disc a b c d)))
  else cubic_root (cubic_r a b c d - Real.sqrt (cubic_disc a b c d))

/-- Local `r13` of the `disc == 0` branch (curve_lib.h:423). -/
noncomputable def cubic_r13z (a b c d : ℝ) : ℝ :=
  if cubic_r a b c d < 0 then -cubic_root (-cubic_r a b c d)
  else cubic_root (cubic_r a b c d)

/-- Local `dum1` of the `disc < 0` branch (curve_lib.h:431-433): `q` is
negated, `dum1 = acos(r / sqrt(q^3))`. -/
noncomputable def cubic_dum1 (a b c d : ℝ) : ℝ :=
  Real.arccos (cubic_r a b c d /
    Real.sqrt (-cubic_q a b c * -cubic_q a b c * -cubic_q a b c))

/-- Local `r13` of the `disc < 0` branch (curve_lib.h:434). -/
noncomputable def cubic_r13n (a b c : ℝ) : ℝ :=
  2 * Real.sqrt (-cubic_q a b c)

/-- `cubic_bezier_curve::solve_cubic` (curve_lib.h:401-448): degraded
quadratic when `a == 0`, immediate `0` when `d == 0`, then the Cardano-style
branches on the sign of `disc`, each candidate checked against `[0,1]` in
order and the function throwing (`none`) when every candidate fails. -/
noncomputable def solve_cubic (a b c d : ℝ) : Option ℝ :=
  if a = 0 then solve_quadratic b c d
  else if d = 0 then some 0
  else if 0 < cubic_disc a b c d then
    if 0 ≤ -cubic_term1 a b + cubic_s a b c d + cubic_t a b c d ∧
        -cubic_term1 a b + cubic_s a b c d + cubic_t a b c d ≤ 1 then
      some (-cubic_term1 a b + cubic_s a b c d + cubic_t a b c d)
    else none
  else if cubic_disc a b c d = 0 then
    if 0 ≤ -cubic_term1 a b + 2 * cubic_r13z a b c d ∧
        -cubic_term1 a b + 2 * cubic_r13z a b c d ≤ 1 then
      some (-cubic_term1 a b + 2 * cubic_r13z a b c d)
    else if 0 ≤ -(cubic_r13z a b c d + cubic_term1 a b) ∧
        -(cubic_r13z a b c d + cubic_term1 a b) ≤ 1 then
      some (-(cubic_r13z a b c d + cubic_term1 a b))
    else none
  else
    if 0 ≤ -cubic_term1 a b + cubic_r13n a b c * Real.cos (cubic_dum1 a b c d / 3) ∧
        -cubic_term1 a b + cubic_r13n a b c * Real.cos (cubic_dum1 a b c d / 3) ≤ 1 then
      some (-cubic_term1 a b + cubic_r13n a b c * Real.cos (cubic_dum1 a b c d / 3))
    else if 0 ≤ -cubic_term1 a b +
          cubic_r13n a b c * Real.cos ((cubic_dum1 a b c d + 2 * Real.pi) / 3) ∧
        -cubic_term1 a b +
          cubic_r13n a b c * Real.cos ((cubic_dum1 a b c d + 2 * Real.pi) / 3) ≤ 1 then
      some (-cubic_term1 a b +
        cubic_r13n a b c * Real.cos ((cubic_dum1 a b c d + 2 * Real.pi) / 3))
    else if 0 ≤ -cubic_term1 a b +
          cubic_r13n a b c * Real.cos ((cubic_dum1 a b c d + 4 * Real.pi) / 3) ∧
        -cubic_term1 a b +
          cubic_r13n a b c * Real.cos ((cubic_dum1 a b c d + 4 * Real.pi) / 3) ≤ 1 then
      some (-cubic_term1 a b +
        cubic_r13n a b c * Real.cos ((cubic_dum1 a b c d + 4 * Real.pi) / 3))
    else none

/-- The candidate roots `solve_cubic` computes and range-checks, per branch,
in the order the source tries them. -/
noncomputable def cubic_candidates (a b c d : ℝ) : List ℝ :=
  if a = 0 then [quad_root1 b c d, quad_root2 b c d]
  else if d = 0 then [0]
  else if 0 < cubic_disc a b c d then
    [-cubic_term1 a b + cubic_s a b c d + cubic_t a b c d]
  else if cubic_disc a b c d = 0 then
    [-cubic_term1 a b + 2 * cubic_r13z a b c d,
     -(cubic_r13z a b c d + cubic_term1 a b)]
  else
    [-cubic_term1 a b + cubic_r13n a b c * Real.cos (cubic_dum1 a b c d / 3),
     -cubic_term1 a b +
       cubic_r13n a b c * Real.cos ((cubic_dum1 a b c d + 2 * Real.pi) / 3),
     -cubic_term1 a b +
       cubic_r13n a b c * Real.cos ((cubic_dum1 a b c d + 4 * Real.pi) / 3)]

theorem solve_quadratic_range (a b c : ℝ) :
    (∀ r, solve_quadratic a b c = some r → 0 ≤ r ∧ r ≤ 1) ∧
    (solve_quadratic a b c = none ↔
      ¬(0 ≤ quad_root1 a b c ∧ quad_root1 a b c ≤ 1) ∧
      ¬(0 ≤ quad_root2 a b c ∧ quad_root2 a b c ≤ 1)) := by
  unfold solve_quadratic
  split_ifs with h1 h2 <;> simp_all

/-- C6: whenever the cubic (or degraded quadratic) solver used for
cubic-Bezier inversion returns a value, that value lies in `[0,1]`; and it
throws (`none`) exactly when none of the candidate roots it computes lies in
`[0,1]` — so a candidate in range is always returned, and no-candidate-in-range
is a defined error, never a silent value. -/
theorem solve_cubic_domain_error (a b c d : ℝ) :
    (∀ r, solve_cubic a b c d = some r → 0 ≤ r ∧ r ≤ 1) ∧
    (solve_cubic a b c d = none ↔
      ∀ x ∈ cubic_candidates a b c d, ¬(0 ≤ x ∧ x ≤ 1)) := by
  unfold solve_cubic cubic_candidates
  split_ifs with h1 h2 h3 h4 h5 h6 h7 h8 h9 h10
  · have h := solve_quadratic_range b c d
    constructor
    · exact h.1
    · rw [h.2]
      simp_all
  all_goals constructor
  all_goals
    first
      | (intro r hr
         rw [Option.some.injEq] at hr
         subst hr
         assumption)
      | (intro r hr
         rw [Option.some.injEq] at hr
         subst hr
         norm_num)
      | (intro r hr; cases hr)
      | simp_all

/-- Witness for C6 at `a = 0, b = 1, c = 0, d = 0`: the degraded quadratic
root is `0 ∈ [0,1]` and the solver returns it. -/
theorem solve_cubic_domain_error_witness :
    solve_cubic 0 1 0 0 = some 0 ∧ (0 : ℝ) ≤ 0 ∧ (0 : ℝ) ≤ 1 := by
  have hq1 : quad_root1 1 0 0 = 0 := by
    unfold quad_root1
    norm_num
  have hs : solve_cubic 0 1 0 0 = some 0 := by
    unfold solve_cubic solve_quadratic
    rw [if_pos rfl, hq1]
    norm_num
  exact ⟨hs, (solve_cubic_domain_error 0 1 0 0).1 0 hs⟩

end hypercurve
